import Mathlib

/-!
Shallow embedding of `proxy/vmess/vmess.go` (the `TimedUserValidator`,
v2ray-core). Timestamps (`protocol.Timestamp`, an `int64`) are modelled as
`Int`; the `uint32` conversion in `timeInc` is modelled explicitly with
`% 2^32`. The token map `map[[16]byte]indexTimePair` is modelled as a
function `Token → Option indexTimePair`; byte strings are lists of `Nat`.
The keyed-hash strategy (`protocol.IDHash`: key bytes, then the 8-byte
encoding of the second, to a 16-byte digest) is abstracted as a function
from key and second to token, exactly the data it consumes per iteration
of `generateNewHashes`.
-/

namespace Vmess

/-- Byte string of an ID (`entry.id.Bytes()`). -/
abbrev Key := List Nat

/-- A 16-byte token (`[16]byte` digest). -/
abbrev Token := List Nat

/-- `updateIntervalSec = 10` from the `const` block. -/
def updateIntervalSec : Int := 10

/-- `cacheDurationSec = 120` from the `const` block. -/
def cacheDurationSec : Int := 120

/-- `*InternalAccount`: the typed account with primary `ID` and `AlterIDs`. -/
structure InternalAccount where
  ID : Key
  AlterIDs : List Key
deriving DecidableEq, Repr

/-- `*protocol.User`: `GetTypedAccount` either yields the typed account or
fails (`none` models the error return). -/
structure User where
  account : Option InternalAccount
deriving DecidableEq, Repr

/-- `idEntry`: one per secret key. -/
structure idEntry where
  id : Key
  userIdx : Nat
  lastSec : Int
deriving DecidableEq, Repr

/-- `indexTimePair`: the map value. `timeInc` holds the value of the Go
`uint32`, hence a `Nat` in `[0, 2^32)`. -/
structure indexTimePair where
  index : Nat
  timeInc : Nat
deriving DecidableEq, Repr

/-- The hash strategy `protocol.IDHash`, abstracted as key and second to
16-byte digest. -/
abbrev Hasher := Key → Int → Token

/-- `TimedUserValidator` (the lock is concurrency glue, not state). -/
structure TimedUserValidator where
  validUsers : List User
  userHash : Token → Option indexTimePair
  ids : List idEntry
  hasher : Hasher
  baseTime : Int

/-- Go `uint32(x)` for an `int64` value `x`: reduction mod `2^32`. -/
def uint32ofInt (x : Int) : Nat := (x % 4294967296).toNat

/-- Store into the token map (`v.userHash[hashValue] = pair`). -/
def mapUpdate (m : Token → Option indexTimePair) (k : Token) (p : indexTimePair) :
    Token → Option indexTimePair :=
  fun t => if t = k then some p else m t

/-- The loop body of `generateNewHashes`: starting at second `sec`, perform
`c` iterations; each stores `hasher key sec ↦ {index := idx, timeInc :=
uint32(sec - baseTime)}` and increments the second. Returns the final map
and the final value of `entry.lastSec`. -/
def genLoop (hasher : Hasher) (baseTime : Int) (idx : Nat) (key : Key) :
    (Token → Option indexTimePair) → Int → Nat → (Token → Option indexTimePair) × Int
  | m, sec, 0 => (m, sec)
  | m, sec, Nat.succ c =>
      genLoop hasher baseTime idx key
        (mapUpdate m (hasher key sec) ⟨idx, uint32ofInt (sec - baseTime)⟩) (sec + 1) c

/-- `generateNewHashes(nowSec, idx, entry)`: runs the loop
`for entry.lastSec <= nowSec`, i.e. `(nowSec + 1 - entry.lastSec)`
iterations when positive. Returns the state with the updated map and the
updated entry (the Go code mutates both in place). -/
def generateNewHashes (v : TimedUserValidator) (nowSec : Int) (idx : Nat) (e : idEntry) :
    TimedUserValidator × idEntry :=
  let r := genLoop v.hasher v.baseTime idx e.id v.userHash e.lastSec (nowSec + 1 - e.lastSec).toNat
  ({ v with userHash := r.1 }, { e with lastSec := r.2 })

/-- `removeExpiredHashes(expire)`: delete every token whose `timeInc <
expire`. The Go range-and-delete over the map is denoted pointwise. -/
def removeExpiredHashes (v : TimedUserValidator) (expire : Nat) : TimedUserValidator :=
  { v with
    userHash := fun t =>
      match v.userHash t with
      | some pair => if pair.timeInc < expire then none else some pair
      | none => none }

/-- The `for _, entry := range v.ids` loop of `updateUserHash`: run
`generateNewHashes(nowSec, entry.userIdx, entry)` for each entry in order,
threading the map; entries are updated in place, so the resulting entry
list replaces the old one. -/
def refreshLoop (nowSec : Int) : TimedUserValidator → List idEntry →
    TimedUserValidator × List idEntry
  | v, [] => (v, [])
  | v, e :: rest =>
      let r := generateNewHashes v nowSec e.userIdx e
      let r2 := refreshLoop nowSec r.1 rest
      (r2.1, r.2 :: r2.2)

/-- The generation phase of one `updateUserHash` cycle at wall-clock
`nowUnix`: every entry is advanced to `nowSec = nowUnix + cacheDurationSec`. -/
def refreshIds (v : TimedUserValidator) (nowSec : Int) : TimedUserValidator :=
  let r := refreshLoop nowSec v v.ids
  { r.1 with ids := r.2 }

/-- One iteration of the timer branch of `updateUserHash` at wall-clock
second `nowUnix`: generation for every entry, then the guarded sweep
`if expire > v.baseTime { removeExpiredHashes(uint32(expire - v.baseTime)) }`
with `expire = nowUnix - cacheDurationSec*3`. -/
def updateCycle (v : TimedUserValidator) (nowUnix : Int) : TimedUserValidator :=
  let v1 := refreshIds v (nowUnix + cacheDurationSec)
  let expire := nowUnix - cacheDurationSec * 3
  if v.baseTime < expire then
    removeExpiredHashes v1 (uint32ofInt (expire - v.baseTime))
  else v1

/-- The per-key body of `Add`, shared by the primary ID and the `AlterIDs`
loop (the Go code repeats it verbatim): build
`idEntry{id, idx, nowSec - cacheDurationSec}`, run `generateNewHashes`
forward to `nowSec + cacheDurationSec`, append the entry to `v.ids`. -/
def addKeys (nowSec : Int) (idx : Nat) : TimedUserValidator → List Key → TimedUserValidator
  | v, [] => v
  | v, k :: rest =>
      let e : idEntry := ⟨k, idx, nowSec - cacheDurationSec⟩
      let r := generateNewHashes v (nowSec + cacheDurationSec) idx e
      addKeys nowSec idx { r.1 with ids := r.1.ids ++ [r.2] } rest

/-- `Add(user)` at wall-clock second `nowSec` (`time.Now().Unix()`). Note
the source order: the user is appended to `validUsers` *before*
`GetTypedAccount` is checked; the error return (`some "AccountTypeError"`)
happens after that append. On success the primary ID and then each AlterID
are seeded. -/
def Add (v : TimedUserValidator) (nowSec : Int) (user : User) :
    TimedUserValidator × Option String :=
  let idx := v.validUsers.length
  let v1 := { v with validUsers := v.validUsers ++ [user] }
  match user.account with
  | none => (v1, some "AccountTypeError")
  | some account => (addKeys nowSec idx v1 (account.ID :: account.AlterIDs), none)

/-- `copy(fixedSizeHash[:], userHash)` into a zero-initialised `[16]byte`:
the first 16 bytes of the input, zero-padded to length 16. -/
def fixedSizeOf (input : List Nat) : Token :=
  input.take 16 ++ List.replicate (16 - input.length) 0

/-- `Get(userHash)`: look up the fixed-size token; on hit return
`(validUsers[pair.index], Timestamp(pair.timeInc) + baseTime, true)`
(the indexed read is modelled with `List.get?`), on miss `(nil, 0, false)`. -/
def Get (v : TimedUserValidator) (userHashBytes : List Nat) :
    Option User × Int × Bool :=
  match v.userHash (fixedSizeOf userHashBytes) with
  | some pair => (v.validUsers[pair.index]?, (pair.timeInc : Int) + v.baseTime, true)
  | none => (none, 0, false)

/-- `NewTimedUserValidator` at wall-clock second `nowUnix`: empty lists,
empty map, `baseTime = nowUnix - cacheDurationSec*3`. -/
def NewTimedUserValidator (hasher : Hasher) (nowUnix : Int) : TimedUserValidator :=
  { validUsers := []
    userHash := fun _ => none
    ids := []
    hasher := hasher
    baseTime := nowUnix - cacheDurationSec * 3 }

/-- States reachable from construction by the two mutating operations:
`Add` and one background-refresh cycle. (`Get` does not mutate.) -/
inductive Reachable : TimedUserValidator → Prop where
  | init : ∀ hasher nowUnix, Reachable (NewTimedUserValidator hasher nowUnix)
  | add : ∀ v nowSec user, Reachable v → Reachable (Add v nowSec user).1
  | cycle : ∀ v nowUnix, Reachable v → Reachable (updateCycle v nowUnix)

/-- A collision-free hash strategy: distinct (key, second) pairs yield
distinct tokens. -/
def HashInjective (h : Hasher) : Prop :=
  ∀ k1 s1 k2 s2, h k1 s1 = h k2 s2 → k1 = k2 ∧ s1 = s2

/-- The seconds covered by one `generateNewHashes(target, _, e)` run: the
loop generates exactly the seconds from `e.lastSec` up to and including
the target. -/
def genSeconds (e : idEntry) (target s : Int) : Prop :=
  e.lastSec ≤ s ∧ s ≤ target

/-- State invariant maintained by construction, `Add` and the refresh
cycle: every entry's `userIdx` is in bounds, and every stored token has an
in-bounds `index` and was produced by the hash of the key of some live
entry whose `userIdx` it carries. -/
def Inv (v : TimedUserValidator) : Prop :=
  (∀ e ∈ v.ids, e.userIdx < v.validUsers.length) ∧
  ∀ t p, v.userHash t = some p →
    p.index < v.validUsers.length ∧
    ∃ K s, t = v.hasher K s ∧ ∃ e ∈ v.ids, e.id = K ∧ e.userIdx = p.index

/-- Injective encoding of a byte string into one `Nat` (used only to build
a concrete collision-free stub hasher for closed instances). -/
def encodeKey : List Nat → Nat
  | [] => 0
  | a :: rest => Nat.pair a (encodeKey rest) + 1

/-- Injective encoding of a second into one `Nat`. -/
def intEnc (s : Int) : Nat :=
  if 0 ≤ s then 2 * s.toNat else 2 * (-s).toNat - 1

/-- A concrete, deterministic, collision-free stub hash strategy producing
16-entry tokens. -/
def testHasher : Hasher :=
  fun k s => encodeKey k :: intEnc s :: List.replicate 14 0

/-- Concrete user with a well-formed account (primary ID `[1]`, no
AlterIDs). -/
def userW : User := ⟨some ⟨[1], []⟩⟩

/-- Concrete user whose typed account is missing. -/
def badUserW : User := ⟨none⟩

/-- Concrete user with a primary ID `[1]` and one alternate ID `[2]`. -/
def user2W : User := ⟨some ⟨[1], [[2]]⟩⟩

/-- Concrete validator: constructed at second 0, with `userW` added at
second 0. -/
def vW : TimedUserValidator := (Add (NewTimedUserValidator testHasher 0) 0 userW).1

/-- Concrete validator with a hand-written one-token map (token
`[1,1,...,1]` ↦ index 0, offset 7), for closed instances of the lookup
claims. -/
def vMapW : TimedUserValidator :=
  { validUsers := [userW]
    userHash := fun t => if t = List.replicate 16 1 then some ⟨0, 7⟩ else none
    ids := []
    hasher := testHasher
    baseTime := 50 }

/-- Concrete validator with a two-token map holding one stale (offset 3)
and one fresh (offset 7) token. -/
def vMap2W : TimedUserValidator :=
  { validUsers := [userW]
    userHash := fun t =>
      if t = List.replicate 16 1 then some ⟨0, 3⟩
      else if t = List.replicate 16 2 then some ⟨0, 7⟩ else none
    ids := []
    hasher := testHasher
    baseTime := 0 }

/-- Concrete entry with generation cursor already at second 10. -/
def eW : idEntry := ⟨[1], 0, 10⟩

/-! ### Arithmetic helpers -/

theorem uint32ofInt_eq_toNat {x : Int} (h0 : 0 ≤ x) (h1 : x < 4294967296) :
    uint32ofInt x = x.toNat := by
  unfold uint32ofInt
  rw [Int.emod_eq_of_lt h0 h1]

/-! ### `genLoop` characterisation -/

theorem genLoop_snd (h : Hasher) (b : Int) (i : Nat) (k : Key) (c : Nat) :
    ∀ (m : Token → Option indexTimePair) (sec : Int),
      (genLoop h b i k m sec c).2 = sec + c := by
  induction c with
  | zero => intro m sec; simp [genLoop]
  | succ c ih =>
      intro m sec
      simp only [genLoop]
      rw [ih]
      omega

theorem genLoop_miss (h : Hasher) (b : Int) (i : Nat) (k : Key) (c : Nat) :
    ∀ (m : Token → Option indexTimePair) (sec : Int) (t : Token),
      (∀ j, j < c → t ≠ h k (sec + j)) →
      (genLoop h b i k m sec c).1 t = m t := by
  induction c with
  | zero => intro m sec t _; simp [genLoop]
  | succ c ih =>
      intro m sec t ht
      simp only [genLoop]
      rw [ih]
      · show (if t = h k sec then _ else m t) = m t
        rw [if_neg]
        have := ht 0 (Nat.succ_pos c)
        simpa using this
      · intro j hj
        have := ht (j + 1) (by omega)
        have harg : sec + (↑(j + 1) : Int) = sec + 1 + j := by push_cast; ring
        rw [harg] at this
        exact this

theorem genLoop_none (h : Hasher) (b : Int) (i : Nat) (k : Key) (c : Nat) :
    ∀ (m : Token → Option indexTimePair) (sec : Int) (t : Token),
      (genLoop h b i k m sec c).1 t = none → m t = none := by
  induction c with
  | zero => intro m sec t ht; simpa [genLoop] using ht
  | succ c ih =>
      intro m sec t ht
      simp only [genLoop] at ht
      have := ih _ _ _ ht
      unfold mapUpdate at this
      by_cases he : t = h k sec
      · rw [if_pos he] at this; exact absurd this (by simp)
      · rwa [if_neg he] at this

theorem genLoop_hit (h : Hasher) (b : Int) (i : Nat) (k : Key) (hInj : HashInjective h)
    (c : Nat) :
    ∀ (m : Token → Option indexTimePair) (sec s : Int),
      sec ≤ s → s < sec + c →
      (genLoop h b i k m sec c).1 (h k s) = some ⟨i, uint32ofInt (s - b)⟩ := by
  induction c with
  | zero => intro m sec s h1 h2; omega
  | succ c ih =>
      intro m sec s h1 h2
      simp only [genLoop]
      by_cases he : s = sec
      · subst he
        rw [genLoop_miss]
        · unfold mapUpdate
          rw [if_pos rfl]
        · intro j hj hcol
          have := (hInj _ _ _ _ hcol).2
          omega
      · exact ih _ (sec + 1) s (by omega) (by omega)

theorem genLoop_preserve (h : Hasher) (b : Int) (i : Nat) (k : Key)
    (hInj : HashInjective h) (c : Nat) :
    ∀ (m : Token → Option indexTimePair) (sec : Int) (K : Key) (s : Int),
      m (h K s) = some ⟨i, uint32ofInt (s - b)⟩ →
      (genLoop h b i k m sec c).1 (h K s) = some ⟨i, uint32ofInt (s - b)⟩ := by
  induction c with
  | zero => intro m sec K s hm; simpa [genLoop] using hm
  | succ c ih =>
      intro m sec K s hm
      simp only [genLoop]
      apply ih
      unfold mapUpdate
      by_cases he : h K s = h k sec
      · rw [if_pos he]
        obtain ⟨hk, hs⟩ := hInj _ _ _ _ he
        subst hs
        rfl
      · rwa [if_neg he]

theorem genLoop_cases (h : Hasher) (b : Int) (i : Nat) (k : Key) (c : Nat) :
    ∀ (m : Token → Option indexTimePair) (sec : Int) (t : Token) (p : indexTimePair),
      (genLoop h b i k m sec c).1 t = some p →
      m t = some p ∨ ∃ j, j < c ∧ t = h k (sec + j) ∧ p.index = i := by
  induction c with
  | zero => intro m sec t p hp; left; simpa [genLoop] using hp
  | succ c ih =>
      intro m sec t p hp
      simp only [genLoop] at hp
      rcases ih _ _ _ _ hp with hup | ⟨j, hj, ht, hpi⟩
      · unfold mapUpdate at hup
        by_cases he : t = h k sec
        · rw [if_pos he] at hup
          right
          refine ⟨0, Nat.succ_pos c, by simpa using he, ?_⟩
          cases hup
          rfl
        · rw [if_neg he] at hup
          left
          exact hup
      · right
        refine ⟨j + 1, by omega, ?_, hpi⟩
        have harg : sec + (↑(j + 1) : Int) = sec + 1 + j := by push_cast; ring
        rw [harg]
        exact ht

/-! ### `generateNewHashes` characterisation -/

@[simp] theorem generateNewHashes_validUsers (v : TimedUserValidator) (n : Int) (i : Nat)
    (e : idEntry) : (generateNewHashes v n i e).1.validUsers = v.validUsers := rfl

@[simp] theorem generateNewHashes_ids (v : TimedUserValidator) (n : Int) (i : Nat)
    (e : idEntry) : (generateNewHashes v n i e).1.ids = v.ids := rfl

@[simp] theorem generateNewHashes_hasher (v : TimedUserValidator) (n : Int) (i : Nat)
    (e : idEntry) : (generateNewHashes v n i e).1.hasher = v.hasher := rfl

@[simp] theorem generateNewHashes_baseTime (v : TimedUserValidator) (n : Int) (i : Nat)
    (e : idEntry) : (generateNewHashes v n i e).1.baseTime = v.baseTime := rfl

@[simp] theorem generateNewHashes_entry_id (v : TimedUserValidator) (n : Int) (i : Nat)
    (e : idEntry) : (generateNewHashes v n i e).2.id = e.id := rfl

@[simp] theorem generateNewHashes_entry_userIdx (v : TimedUserValidator) (n : Int) (i : Nat)
    (e : idEntry) : (generateNewHashes v n i e).2.userIdx = e.userIdx := rfl

theorem generateNewHashes_entry_lastSec (v : TimedUserValidator) (n : Int) (i : Nat)
    (e : idEntry) :
    (generateNewHashes v n i e).2.lastSec = e.lastSec + ((n + 1 - e.lastSec).toNat : Int) := by
  show ({ e with lastSec := _ } : idEntry).lastSec = _
  simp only [generateNewHashes, genLoop_snd]

theorem generateNewHashes_lastSec_mono (v : TimedUserValidator) (n : Int) (i : Nat)
    (e : idEntry) : e.lastSec ≤ (generateNewHashes v n i e).2.lastSec := by
  rw [generateNewHashes_entry_lastSec]
  omega

theorem generateNewHashes_lastSec_of_le (v : TimedUserValidator) (n : Int) (i : Nat)
    (e : idEntry) (h : e.lastSec ≤ n) : (generateNewHashes v n i e).2.lastSec = n + 1 := by
  rw [generateNewHashes_entry_lastSec]
  omega

theorem generateNewHashes_hit (v : TimedUserValidator) (n : Int) (i : Nat) (e : idEntry)
    (hInj : HashInjective v.hasher) (s : Int) (h1 : e.lastSec ≤ s) (h2 : s ≤ n) :
    (generateNewHashes v n i e).1.userHash (v.hasher e.id s)
      = some ⟨i, uint32ofInt (s - v.baseTime)⟩ := by
  show (genLoop v.hasher v.baseTime i e.id v.userHash e.lastSec (n + 1 - e.lastSec).toNat).1 _
      = _
  exact genLoop_hit v.hasher v.baseTime i e.id hInj _ _ _ _ h1 (by omega)

theorem generateNewHashes_untouched (v : TimedUserValidator) (n : Int) (i : Nat)
    (e : idEntry) (hInj : HashInjective v.hasher) (s : Int) (hs : ¬ genSeconds e n s) :
    (generateNewHashes v n i e).1.userHash (v.hasher e.id s)
      = v.userHash (v.hasher e.id s) := by
  show (genLoop v.hasher v.baseTime i e.id v.userHash e.lastSec (n + 1 - e.lastSec).toNat).1 _
      = _
  apply genLoop_miss
  intro j hj hcol
  have hsj := (hInj _ _ _ _ hcol).2
  unfold genSeconds at hs
  omega

theorem generateNewHashes_preserve (v : TimedUserValidator) (n : Int) (i : Nat)
    (e : idEntry) (hInj : HashInjective v.hasher) (K : Key) (s : Int)
    (hm : v.userHash (v.hasher K s) = some ⟨i, uint32ofInt (s - v.baseTime)⟩) :
    (generateNewHashes v n i e).1.userHash (v.hasher K s)
      = some ⟨i, uint32ofInt (s - v.baseTime)⟩ := by
  show (genLoop v.hasher v.baseTime i e.id v.userHash e.lastSec (n + 1 - e.lastSec).toNat).1 _
      = _
  exact genLoop_preserve v.hasher v.baseTime i e.id hInj _ _ _ _ _ hm

theorem generateNewHashes_cases (v : TimedUserValidator) (n : Int) (i : Nat) (e : idEntry)
    (t : Token) (p : indexTimePair)
    (hp : (generateNewHashes v n i e).1.userHash t = some p) :
    v.userHash t = some p ∨ ∃ s, genSeconds e n s ∧ t = v.hasher e.id s ∧ p.index = i := by
  have hc := genLoop_cases v.hasher v.baseTime i e.id (n + 1 - e.lastSec).toNat
      v.userHash e.lastSec t p hp
  rcases hc with hold | ⟨j, hj, ht, hpi⟩
  · exact Or.inl hold
  · right
    exact ⟨e.lastSec + j, ⟨by omega, by omega⟩, ht, hpi⟩

theorem generateNewHashes_none (v : TimedUserValidator) (n : Int) (i : Nat) (e : idEntry)
    (t : Token) (ht : (generateNewHashes v n i e).1.userHash t = none) :
    v.userHash t = none :=
  genLoop_none v.hasher v.baseTime i e.id _ _ _ _ ht

theorem generateNewHashes_state (v : TimedUserValidator) (n : Int) (i : Nat) (e : idEntry) :
    (generateNewHashes v n i e).1
      = { v with userHash := (generateNewHashes v n i e).1.userHash } := rfl

/-! ### `refreshLoop` characterisation -/

theorem refreshLoop_state (n : Int) (l : List idEntry) :
    ∀ v : TimedUserValidator,
      (refreshLoop n v l).1 = { v with userHash := (refreshLoop n v l).1.userHash } := by
  induction l with
  | nil => intro v; rfl
  | cons e rest ih =>
      intro v
      show (refreshLoop n (generateNewHashes v n e.userIdx e).1 rest).1 = _
      rw [ih]
      rfl

@[simp] theorem refreshLoop_validUsers (n : Int) (l : List idEntry) (v : TimedUserValidator) :
    (refreshLoop n v l).1.validUsers = v.validUsers := by
  rw [refreshLoop_state]

@[simp] theorem refreshLoop_ids (n : Int) (l : List idEntry) (v : TimedUserValidator) :
    (refreshLoop n v l).1.ids = v.ids := by
  rw [refreshLoop_state]

@[simp] theorem refreshLoop_hasher (n : Int) (l : List idEntry) (v : TimedUserValidator) :
    (refreshLoop n v l).1.hasher = v.hasher := by
  rw [refreshLoop_state]

@[simp] theorem refreshLoop_baseTime (n : Int) (l : List idEntry) (v : TimedUserValidator) :
    (refreshLoop n v l).1.baseTime = v.baseTime := by
  rw [refreshLoop_state]

theorem refreshLoop_entries (n : Int) (l : List idEntry) :
    ∀ v : TimedUserValidator,
      ((refreshLoop n v l).2).map (fun e => (e.id, e.userIdx))
        = l.map (fun e => (e.id, e.userIdx)) := by
  induction l with
  | nil => intro v; rfl
  | cons e rest ih =>
      intro v
      show ((generateNewHashes v n e.userIdx e).2 :: (refreshLoop n _ rest).2).map _ = _
      simp only [List.map_cons, ih]
      rfl

theorem refreshLoop_mono (n : Int) (l : List idEntry) :
    ∀ (v : TimedUserValidator) (j : Nat) (e : idEntry), l[j]? = some e →
      ∃ e', ((refreshLoop n v l).2)[j]? = some e' ∧ e.lastSec ≤ e'.lastSec ∧
        e'.id = e.id ∧ e'.userIdx = e.userIdx := by
  induction l with
  | nil => intro v j e he; simp at he
  | cons e0 rest ih =>
      intro v j e he
      have hshow : (refreshLoop n v (e0 :: rest)).2
          = (generateNewHashes v n e0.userIdx e0).2
            :: (refreshLoop n (generateNewHashes v n e0.userIdx e0).1 rest).2 := rfl
      rw [hshow]
      match j with
      | 0 =>
          simp only [List.getElem?_cons_zero, Option.some.injEq] at he
          refine ⟨(generateNewHashes v n e0.userIdx e0).2, by simp, ?_, ?_, ?_⟩
          · rw [← he]
            exact generateNewHashes_lastSec_mono v n e0.userIdx e0
          · rw [← he]
            rfl
          · rw [← he]
            rfl
      | Nat.succ j =>
          simp only [List.getElem?_cons_succ] at he ⊢
          exact ih _ j e he

theorem refreshLoop_lookup (n : Int) (l : List idEntry) :
    ∀ (v : TimedUserValidator) (t : Token) (p : indexTimePair),
      (refreshLoop n v l).1.userHash t = some p →
      v.userHash t = some p ∨
        ∃ e, e ∈ l ∧ ∃ s, t = v.hasher e.id s ∧ p.index = e.userIdx := by
  induction l with
  | nil => intro v t p hp; exact Or.inl hp
  | cons e0 rest ih =>
      intro v t p hp
      have hp' : (refreshLoop n (generateNewHashes v n e0.userIdx e0).1 rest).1.userHash t
          = some p := hp
      rcases ih _ t p hp' with hmid | ⟨e, hel, s, hts, hpi⟩
      · rcases generateNewHashes_cases v n e0.userIdx e0 t p hmid with hold | ⟨s, _, hts, hpi⟩
        · exact Or.inl hold
        · exact Or.inr ⟨e0, List.mem_cons_self e0 rest, s, hts, hpi⟩
      · right
        refine ⟨e, List.mem_cons_of_mem e0 hel, s, ?_, hpi⟩
        rwa [generateNewHashes_hasher] at hts

theorem refreshLoop_none (n : Int) (l : List idEntry) :
    ∀ (v : TimedUserValidator) (t : Token),
      (refreshLoop n v l).1.userHash t = none → v.userHash t = none := by
  induction l with
  | nil => intro v t ht; exact ht
  | cons e0 rest ih =>
      intro v t ht
      exact generateNewHashes_none v n e0.userIdx e0 t (ih _ t ht)

/-! ### `addKeys` and `Add` characterisation -/

theorem addKeys_cons (n : Int) (idx : Nat) (v : TimedUserValidator) (k : Key)
    (rest : List Key) :
    addKeys n idx v (k :: rest)
      = addKeys n idx
          { (generateNewHashes v (n + cacheDurationSec) idx
              ⟨k, idx, n - cacheDurationSec⟩).1 with
            ids := (generateNewHashes v (n + cacheDurationSec) idx
                ⟨k, idx, n - cacheDurationSec⟩).1.ids
              ++ [(generateNewHashes v (n + cacheDurationSec) idx
                  ⟨k, idx, n - cacheDurationSec⟩).2] }
          rest := rfl

@[simp] theorem addKeys_validUsers (n : Int) (idx : Nat) (keys : List Key) :
    ∀ v : TimedUserValidator, (addKeys n idx v keys).validUsers = v.validUsers := by
  induction keys with
  | nil => intro v; rfl
  | cons k rest ih =>
      intro v
      rw [addKeys_cons, ih]
      rfl

@[simp] theorem addKeys_hasher (n : Int) (idx : Nat) (keys : List Key) :
    ∀ v : TimedUserValidator, (addKeys n idx v keys).hasher = v.hasher := by
  induction keys with
  | nil => intro v; rfl
  | cons k rest ih =>
      intro v
      rw [addKeys_cons, ih]
      rfl

@[simp] theorem addKeys_baseTime (n : Int) (idx : Nat) (keys : List Key) :
    ∀ v : TimedUserValidator, (addKeys n idx v keys).baseTime = v.baseTime := by
  induction keys with
  | nil => intro v; rfl
  | cons k rest ih =>
      intro v
      rw [addKeys_cons, ih]
      rfl

theorem addKeys_ids_sub (n : Int) (idx : Nat) (keys : List Key) :
    ∀ v : TimedUserValidator, ∃ l, (addKeys n idx v keys).ids = v.ids ++ l := by
  induction keys with
  | nil => intro v; exact ⟨[], by simp [addKeys]⟩
  | cons k rest ih =>
      intro v
      rw [addKeys_cons]
      obtain ⟨l, hl⟩ := ih _
      refine ⟨(generateNewHashes v (n + cacheDurationSec) idx
          ⟨k, idx, n - cacheDurationSec⟩).2 :: l, ?_⟩
      rw [hl]
      show ((generateNewHashes v (n + cacheDurationSec) idx
          ⟨k, idx, n - cacheDurationSec⟩).1.ids
        ++ [(generateNewHashes v (n + cacheDurationSec) idx
            ⟨k, idx, n - cacheDurationSec⟩).2]) ++ l = _
      rw [generateNewHashes_ids]
      simp

theorem addKeys_preserve (n : Int) (idx : Nat) (keys : List Key) :
    ∀ v : TimedUserValidator, HashInjective v.hasher →
      ∀ (K : Key) (s : Int),
        v.userHash (v.hasher K s) = some ⟨idx, uint32ofInt (s - v.baseTime)⟩ →
        (addKeys n idx v keys).userHash (v.hasher K s)
          = some ⟨idx, uint32ofInt (s - v.baseTime)⟩ := by
  induction keys with
  | nil => intro v _ K s hm; exact hm
  | cons k rest ih =>
      intro v hInj K s hm
      rw [addKeys_cons]
      apply ih
      · exact hInj
      · exact generateNewHashes_preserve v (n + cacheDurationSec) idx
          ⟨k, idx, n - cacheDurationSec⟩ hInj K s hm

theorem addKeys_hit (n : Int) (idx : Nat) (keys : List Key) :
    ∀ v : TimedUserValidator, HashInjective v.hasher →
      ∀ (K : Key) (s : Int), K ∈ keys →
        n - cacheDurationSec ≤ s → s ≤ n + cacheDurationSec →
        (addKeys n idx v keys).userHash (v.hasher K s)
          = some ⟨idx, uint32ofInt (s - v.baseTime)⟩ := by
  induction keys with
  | nil => intro v _ K s hK; simp at hK
  | cons k rest ih =>
      intro v hInj K s hK h1 h2
      rcases List.mem_cons.mp hK with rfl | hKr
      · rw [addKeys_cons]
        apply addKeys_preserve
        · exact hInj
        · exact generateNewHashes_hit v (n + cacheDurationSec) idx
            ⟨K, idx, n - cacheDurationSec⟩ hInj s h1 h2
      · rw [addKeys_cons]
        apply ih
        · exact hInj
        · exact hKr
        · exact h1
        · exact h2

theorem Add_fail (v : TimedUserValidator) (n : Int) (user : User)
    (h : user.account = none) :
    Add v n user
      = ({ v with validUsers := v.validUsers ++ [user] }, some "AccountTypeError") := by
  unfold Add
  rw [h]

theorem Add_success (v : TimedUserValidator) (n : Int) (user : User)
    (account : InternalAccount) (h : user.account = some account) :
    Add v n user
      = (addKeys n v.validUsers.length { v with validUsers := v.validUsers ++ [user] }
          (account.ID :: account.AlterIDs), none) := by
  unfold Add
  rw [h]

/-! ### Field lemmas for the remaining operations -/

@[simp] theorem removeExpiredHashes_validUsers (v : TimedUserValidator) (x : Nat) :
    (removeExpiredHashes v x).validUsers = v.validUsers := rfl

@[simp] theorem removeExpiredHashes_ids (v : TimedUserValidator) (x : Nat) :
    (removeExpiredHashes v x).ids = v.ids := rfl

@[simp] theorem removeExpiredHashes_hasher (v : TimedUserValidator) (x : Nat) :
    (removeExpiredHashes v x).hasher = v.hasher := rfl

@[simp] theorem removeExpiredHashes_baseTime (v : TimedUserValidator) (x : Nat) :
    (removeExpiredHashes v x).baseTime = v.baseTime := rfl

theorem removeExpiredHashes_lookup (v : TimedUserValidator) (x : Nat) (t : Token) :
    (removeExpiredHashes v x).userHash t
      = match v.userHash t with
        | some pair => if pair.timeInc < x then none else some pair
        | none => none := rfl

@[simp] theorem refreshIds_validUsers (v : TimedUserValidator) (n : Int) :
    (refreshIds v n).validUsers = v.validUsers := by
  show (refreshLoop n v v.ids).1.validUsers = v.validUsers
  rw [refreshLoop_validUsers]

@[simp] theorem refreshIds_hasher (v : TimedUserValidator) (n : Int) :
    (refreshIds v n).hasher = v.hasher := by
  show (refreshLoop n v v.ids).1.hasher = v.hasher
  rw [refreshLoop_hasher]

@[simp] theorem refreshIds_baseTime (v : TimedUserValidator) (n : Int) :
    (refreshIds v n).baseTime = v.baseTime := by
  show (refreshLoop n v v.ids).1.baseTime = v.baseTime
  rw [refreshLoop_baseTime]

theorem refreshIds_ids (v : TimedUserValidator) (n : Int) :
    (refreshIds v n).ids = (refreshLoop n v v.ids).2 := rfl

theorem refreshIds_userHash (v : TimedUserValidator) (n : Int) :
    (refreshIds v n).userHash = (refreshLoop n v v.ids).1.userHash := rfl

theorem refreshLoop_mem_transport (n : Int) (v : TimedUserValidator) (e : idEntry)
    (he : e ∈ v.ids) :
    ∃ e', e' ∈ (refreshLoop n v v.ids).2 ∧ e'.id = e.id ∧ e'.userIdx = e.userIdx := by
  have hmem : (e.id, e.userIdx) ∈ v.ids.map (fun e => (e.id, e.userIdx)) :=
    List.mem_map_of_mem _ he
  rw [← refreshLoop_entries n v.ids v] at hmem
  obtain ⟨e', he', heq⟩ := List.mem_map.mp hmem
  exact ⟨e', he', congrArg Prod.fst heq, congrArg Prod.snd heq⟩

/-! ### Invariant preservation -/

theorem addKeys_inv (n : Int) (idx : Nat) (keys : List Key) :
    ∀ v : TimedUserValidator, Inv v → idx < v.validUsers.length →
      Inv (addKeys n idx v keys) := by
  induction keys with
  | nil => intro v hI _; exact hI
  | cons k rest ih =>
      intro v hI hidx
      rw [addKeys_cons]
      apply ih
      · constructor
        · intro e he
          have he' : e ∈ v.ids
              ++ [(generateNewHashes v (n + cacheDurationSec) idx
                  ⟨k, idx, n - cacheDurationSec⟩).2] := he
          rcases List.mem_append.mp he' with h | h
          · show e.userIdx < v.validUsers.length
            exact hI.1 e h
          · have he2 : e = (generateNewHashes v (n + cacheDurationSec) idx
                ⟨k, idx, n - cacheDurationSec⟩).2 := by simpa using h
            subst he2
            show idx < v.validUsers.length
            exact hidx
        · intro t p hp
          have hp' : (generateNewHashes v (n + cacheDurationSec) idx
              ⟨k, idx, n - cacheDurationSec⟩).1.userHash t = some p := hp
          rcases generateNewHashes_cases v (n + cacheDurationSec) idx
              ⟨k, idx, n - cacheDurationSec⟩ t p hp' with hold | ⟨s, _, hts, hpi⟩
          · obtain ⟨hb, K, s, htk, e, hel, hei, heu⟩ := hI.2 t p hold
            refine ⟨hb, K, s, htk, e, ?_, hei, heu⟩
            exact List.mem_append_left _ hel
          · refine ⟨?_, k, s, hts, (generateNewHashes v (n + cacheDurationSec) idx
              ⟨k, idx, n - cacheDurationSec⟩).2, ?_, rfl, hpi.symm⟩
            · show p.index < v.validUsers.length
              rw [hpi]
              exact hidx
            · exact List.mem_append_right _ (by simp)
      · exact hidx

theorem Inv_new (hasher : Hasher) (nowUnix : Int) :
    Inv (NewTimedUserValidator hasher nowUnix) := by
  constructor
  · intro e he
    simp [NewTimedUserValidator] at he
  · intro t p hp
    simp [NewTimedUserValidator] at hp

theorem Inv_add (v : TimedUserValidator) (n : Int) (user : User) (hI : Inv v) :
    Inv (Add v n user).1 := by
  cases hacc : user.account with
  | none =>
      rw [Add_fail v n user hacc]
      constructor
      · intro e he
        have hb := hI.1 e he
        show e.userIdx < (v.validUsers ++ [user]).length
        rw [List.length_append]
        omega
      · intro t p hp
        obtain ⟨hb, K, s, htk, e, hel, hei, heu⟩ := hI.2 t p hp
        refine ⟨?_, K, s, htk, e, hel, hei, heu⟩
        show p.index < (v.validUsers ++ [user]).length
        rw [List.length_append]
        omega
  | some account =>
      rw [Add_success v n user account hacc]
      show Inv (addKeys n v.validUsers.length
        { v with validUsers := v.validUsers ++ [user] } (account.ID :: account.AlterIDs))
      apply addKeys_inv
      · constructor
        · intro e he
          have hb := hI.1 e he
          show e.userIdx < (v.validUsers ++ [user]).length
          rw [List.length_append]
          omega
        · intro t p hp
          obtain ⟨hb, K, s, htk, e, hel, hei, heu⟩ := hI.2 t p hp
          refine ⟨?_, K, s, htk, e, hel, hei, heu⟩
          show p.index < (v.validUsers ++ [user]).length
          rw [List.length_append]
          omega
      · show v.validUsers.length < (v.validUsers ++ [user]).length
        simp

theorem Inv_removeExpired (v : TimedUserValidator) (x : Nat) (hI : Inv v) :
    Inv (removeExpiredHashes v x) := by
  constructor
  · intro e he
    exact hI.1 e he
  · intro t p hp
    rw [removeExpiredHashes_lookup] at hp
    have hv : v.userHash t = some p := by
      revert hp
      cases hvt : v.userHash t with
      | none => simp
      | some q =>
          simp only
          intro hp
          by_cases hlt : q.timeInc < x
          · rw [if_pos hlt] at hp
            cases hp
          · rw [if_neg hlt] at hp
            exact hp
    exact hI.2 t p hv

theorem Inv_refreshIds (v : TimedUserValidator) (n : Int) (hI : Inv v) :
    Inv (refreshIds v n) := by
  constructor
  · intro e he
    have he' : e ∈ (refreshLoop n v v.ids).2 := he
    have hmem : (e.id, e.userIdx) ∈ ((refreshLoop n v v.ids).2).map
        (fun e => (e.id, e.userIdx)) := List.mem_map_of_mem _ he'
    rw [refreshLoop_entries] at hmem
    obtain ⟨e0, he0, heq⟩ := List.mem_map.mp hmem
    have hu : e0.userIdx = e.userIdx := congrArg Prod.snd heq
    rw [refreshIds_validUsers, ← hu]
    exact hI.1 e0 he0
  · intro t p hp
    have hp' : (refreshLoop n v v.ids).1.userHash t = some p := hp
    rcases refreshLoop_lookup n v.ids v t p hp' with hold | ⟨e, hel, s, hts, hpi⟩
    · obtain ⟨hb, K, s, htk, e, hel, hei, heu⟩ := hI.2 t p hold
      obtain ⟨e', he', hid, hu⟩ := refreshLoop_mem_transport n v e hel
      refine ⟨?_, K, s, ?_, e', he', ?_, ?_⟩
      · rw [refreshIds_validUsers]
        exact hb
      · rw [refreshIds_hasher]
        exact htk
      · rw [hid]
        exact hei
      · rw [hu]
        exact heu
    · obtain ⟨e', he', hid, hu⟩ := refreshLoop_mem_transport n v e hel
      refine ⟨?_, e.id, s, ?_, e', he', hid, ?_⟩
      · rw [refreshIds_validUsers, hpi]
        exact hI.1 e hel
      · rw [refreshIds_hasher]
        exact hts
      · rw [hu, hpi]

theorem Inv_cycle (v : TimedUserValidator) (nowUnix : Int) (hI : Inv v) :
    Inv (updateCycle v nowUnix) := by
  have hI1 : Inv (refreshIds v (nowUnix + cacheDurationSec)) := Inv_refreshIds v _ hI
  unfold updateCycle
  by_cases hg : v.baseTime < nowUnix - cacheDurationSec * 3
  · rw [if_pos hg]
    exact Inv_removeExpired _ _ hI1
  · rw [if_neg hg]
    exact hI1

theorem reachable_inv (v : TimedUserValidator) (h : Reachable v) : Inv v := by
  induction h with
  | init hasher nowUnix => exact Inv_new hasher nowUnix
  | add v nowSec user _ ih => exact Inv_add v nowSec user ih
  | cycle v nowUnix _ ih => exact Inv_cycle v nowUnix ih

/-! ### `Get` and `updateCycle` helpers -/

theorem fixedSizeOf_eq_self (l : List Nat) (hlen : l.length = 16) :
    fixedSizeOf l = l := by
  unfold fixedSizeOf
  rw [hlen, List.take_of_length_le (le_of_eq hlen)]
  simp

theorem Get_of_lookup (v : TimedUserValidator) (input : List Nat) (pair : indexTimePair)
    (h : v.userHash (fixedSizeOf input) = some pair) :
    Get v input = (v.validUsers[pair.index]?, (pair.timeInc : Int) + v.baseTime, true) := by
  unfold Get
  rw [h]

theorem Get_of_none (v : TimedUserValidator) (input : List Nat)
    (h : v.userHash (fixedSizeOf input) = none) :
    Get v input = (none, 0, false) := by
  unfold Get
  rw [h]

theorem updateCycle_ids (v : TimedUserValidator) (nowUnix : Int) :
    (updateCycle v nowUnix).ids
      = (refreshLoop (nowUnix + cacheDurationSec) v v.ids).2 := by
  unfold updateCycle
  by_cases hg : v.baseTime < nowUnix - cacheDurationSec * 3
  · rw [if_pos hg]
    rfl
  · rw [if_neg hg]
    rfl

/-! ### The concrete stub hasher is collision-free -/

theorem encodeKey_inj (k1 : List Nat) :
    ∀ k2, encodeKey k1 = encodeKey k2 → k1 = k2 := by
  induction k1 with
  | nil =>
      intro k2 h
      cases k2 with
      | nil => rfl
      | cons b t2 => simp [encodeKey] at h
  | cons a t ih =>
      intro k2 h
      cases k2 with
      | nil => simp [encodeKey] at h
      | cons b t2 =>
          simp only [encodeKey, Nat.add_right_cancel_iff] at h
          obtain ⟨h1, h2⟩ := Nat.pair_eq_pair.mp h
          rw [h1, ih t2 h2]

theorem intEnc_inj (s1 s2 : Int) (h : intEnc s1 = intEnc s2) : s1 = s2 := by
  unfold intEnc at h
  by_cases h1 : 0 ≤ s1 <;> by_cases h2 : 0 ≤ s2 <;>
    simp only [if_pos, if_neg, h1, h2, ite_true, ite_false] at h <;> omega

theorem testHasher_inj : HashInjective testHasher := by
  intro k1 s1 k2 s2 h
  unfold testHasher at h
  simp only [List.cons.injEq] at h
  exact ⟨encodeKey_inj k1 k2 h.1, intEnc_inj s1 s2 h.2.1⟩

theorem testHasher_len (k : Key) (s : Int) : (testHasher k s).length = 16 := by
  simp [testHasher]

/-! ### Claim theorems -/

/-- C1 (counterexample): the claim "if `Add` fails with `AccountTypeError`
then no identity is appended to the identity list" is false on the code: at
the concrete empty validator, `Add` of a user with a missing typed account
returns `AccountTypeError` yet the identity list has changed (the user was
appended before the account check). -/
theorem add_fail_appends_user_counterexample :
    (Add (NewTimedUserValidator testHasher 0) 0 badUserW).2 = some "AccountTypeError" ∧
    (Add (NewTimedUserValidator testHasher 0) 0 badUserW).1.validUsers
      ≠ (NewTimedUserValidator testHasher 0).validUsers := by
  constructor
  · rfl
  · decide

/-- C1 (amended): if `Add(identity)` fails, the failure is
`AccountTypeError`, and no `IdentityEntry` is created and no token is
inserted into the token map — but the identity *is* appended to the
identity list (the source appends before checking the typed account). -/
theorem add_fail_no_entries_no_tokens (v : TimedUserValidator) (nowSec : Int) (user : User)
    (hfail : (Add v nowSec user).2 ≠ none) :
    (Add v nowSec user).2 = some "AccountTypeError" ∧
    (Add v nowSec user).1.validUsers = v.validUsers ++ [user] ∧
    (Add v nowSec user).1.ids = v.ids ∧
    (Add v nowSec user).1.userHash = v.userHash := by
  cases hacc : user.account with
  | some account =>
      rw [Add_success v nowSec user account hacc] at hfail
      simp at hfail
  | none =>
      rw [Add_fail v nowSec user hacc]
      exact ⟨rfl, rfl, rfl, rfl⟩

/-- C1 (witness for the amended theorem) at the concrete empty validator
and account-less user. -/
theorem add_fail_no_entries_no_tokens_witness :
    (Add (NewTimedUserValidator testHasher 0) 0 badUserW).2 = some "AccountTypeError" ∧
    (Add (NewTimedUserValidator testHasher 0) 0 badUserW).1.validUsers
      = (NewTimedUserValidator testHasher 0).validUsers ++ [badUserW] ∧
    (Add (NewTimedUserValidator testHasher 0) 0 badUserW).1.ids
      = (NewTimedUserValidator testHasher 0).ids ∧
    (Add (NewTimedUserValidator testHasher 0) 0 badUserW).1.userHash
      = (NewTimedUserValidator testHasher 0).userHash :=
  add_fail_no_entries_no_tokens (NewTimedUserValidator testHasher 0) 0 badUserW (by decide)

/-- C3: for every 16-byte input, `Get` returns
`(validUsers[pair.index], baseTime + pair.timeInc, true)` when the token is
present in the map and `(none, 0, false)` when it is absent. (`Get` is a
pure function of the state in this embedding: it returns no new state, so
it mutates nothing.) -/
theorem get_hit_and_miss (v : TimedUserValidator) (input : List Nat) (pair : indexTimePair)
    (hlen : input.length = 16) :
    (v.userHash input = some pair →
      Get v input = (v.validUsers[pair.index]?, (pair.timeInc : Int) + v.baseTime, true)) ∧
    (v.userHash input = none → Get v input = (none, 0, false)) := by
  constructor
  · intro h
    exact Get_of_lookup v input pair (by rwa [fixedSizeOf_eq_self input hlen])
  · intro h
    exact Get_of_none v input (by rwa [fixedSizeOf_eq_self input hlen])

/-- C3 (witness): at the concrete one-token validator, a hit on the stored
token and a miss on a fresh token. -/
theorem get_hit_and_miss_witness :
    Get vMapW (List.replicate 16 1)
      = (vMapW.validUsers[(0 : Nat)]?, ((7 : Nat) : Int) + vMapW.baseTime, true) ∧
    Get vMapW (List.replicate 16 2) = (none, 0, false) :=
  ⟨(get_hit_and_miss vMapW (List.replicate 16 1) ⟨0, 7⟩ (by decide)).1 (by decide),
   (get_hit_and_miss vMapW (List.replicate 16 2) ⟨0, 7⟩ (by decide)).2 (by decide)⟩

/-- C4: `removeExpiredHashes(expire)` deletes exactly the tokens whose
stored `timeInc` is strictly below `expire`: every such token is removed,
every other stored token keeps its exact pair, absent tokens stay absent,
and the identity list, entry list, hasher and base time are untouched. -/
theorem removeStale_exact (v : TimedUserValidator) (expire : Nat) :
    (∀ t p, v.userHash t = some p → p.timeInc < expire →
        (removeExpiredHashes v expire).userHash t = none) ∧
    (∀ t p, v.userHash t = some p → expire ≤ p.timeInc →
        (removeExpiredHashes v expire).userHash t = some p) ∧
    (∀ t, v.userHash t = none → (removeExpiredHashes v expire).userHash t = none) ∧
    (removeExpiredHashes v expire).validUsers = v.validUsers ∧
    (removeExpiredHashes v expire).ids = v.ids ∧
    (removeExpiredHashes v expire).hasher = v.hasher ∧
    (removeExpiredHashes v expire).baseTime = v.baseTime := by
  refine ⟨?_, ?_, ?_, rfl, rfl, rfl, rfl⟩
  · intro t p hp hlt
    rw [removeExpiredHashes_lookup, hp]
    simp only
    rw [if_pos hlt]
  · intro t p hp hge
    rw [removeExpiredHashes_lookup, hp]
    simp only
    rw [if_neg (by omega)]
  · intro t ht
    rw [removeExpiredHashes_lookup, ht]

/-- C4 (witness): at the concrete two-token validator and `expire = 5`,
the stale token (offset 3) is deleted, the fresh one (offset 7) keeps its
pair, and the entry list is untouched. -/
theorem removeStale_exact_witness :
    (removeExpiredHashes vMap2W 5).userHash (List.replicate 16 1) = none ∧
    (removeExpiredHashes vMap2W 5).userHash (List.replicate 16 2) = some ⟨0, 7⟩ ∧
    (removeExpiredHashes vMap2W 5).ids = vMap2W.ids :=
  ⟨(removeStale_exact vMap2W 5).1 (List.replicate 16 1) ⟨0, 3⟩ (by decide) (by decide),
   ((removeStale_exact vMap2W 5).2.1 (List.replicate 16 2) ⟨0, 7⟩ (by decide) (by decide)),
   (removeStale_exact vMap2W 5).2.2.2.2.1⟩

/-- C10: `Get` is total on inputs of any length: only the first 16 bytes
of a longer input are considered, and an input shorter than 16 bytes
behaves exactly as that input zero-padded to 16 bytes. -/
theorem get_input_padding (v : TimedUserValidator) (input : List Nat) :
    Get v input = Get v (input.take 16) ∧
    (input.length ≤ 16 →
      Get v input = Get v (input ++ List.replicate (16 - input.length) 0)) := by
  constructor
  · have hfix : fixedSizeOf (input.take 16) = fixedSizeOf input := by
      have hc : 16 - min 16 input.length = 16 - input.length := by omega
      simp [fixedSizeOf, List.take_take, List.length_take, hc]
    unfold Get
    rw [hfix]
  · intro hle
    have h1 : (input ++ List.replicate (16 - input.length) 0).length = 16 := by
      rw [List.length_append, List.length_replicate]
      omega
    have hfix : fixedSizeOf (input ++ List.replicate (16 - input.length) 0)
        = fixedSizeOf input := by
      rw [fixedSizeOf_eq_self _ h1]
      unfold fixedSizeOf
      rw [List.take_of_length_le hle]
    unfold Get
    rw [hfix]

/-- C10 (witness): at the concrete validator, a 3-byte input behaves as its
first 16 bytes and as its zero-padding to 16 bytes. -/
theorem get_input_padding_witness :
    Get vMapW [1, 2, 3] = Get vMapW ([1, 2, 3].take 16) ∧
    Get vMapW [1, 2, 3]
      = Get vMapW ([1, 2, 3] ++ List.replicate (16 - [1, 2, 3].length) 0) :=
  ⟨(get_input_padding vMapW [1, 2, 3]).1,
   (get_input_padding vMapW [1, 2, 3]).2 (by decide)⟩

/-- C5: in a refresh cycle at wall-clock `nowUnix`, if the expiry horizon
`nowUnix - 3·cacheDuration` does not exceed `baseTime` the sweep is skipped
(the cycle is exactly the generation phase — in particular no stored token
is deleted, and the offset subtraction is never performed); whenever the
sweep does run, the offset `horizon - baseTime` is non-negative (indeed
positive), so the unsigned subtraction cannot underflow. -/
theorem sweep_guard (v : TimedUserValidator) (nowUnix : Int) :
    (nowUnix - cacheDurationSec * 3 ≤ v.baseTime →
      updateCycle v nowUnix = refreshIds v (nowUnix + cacheDurationSec) ∧
      ∀ t p, v.userHash t = some p →
        ∃ p', (updateCycle v nowUnix).userHash t = some p') ∧
    (v.baseTime < nowUnix - cacheDurationSec * 3 →
      0 ≤ nowUnix - cacheDurationSec * 3 - v.baseTime ∧
      updateCycle v nowUnix
        = removeExpiredHashes (refreshIds v (nowUnix + cacheDurationSec))
            (uint32ofInt (nowUnix - cacheDurationSec * 3 - v.baseTime))) := by
  constructor
  · intro hle
    have heq : updateCycle v nowUnix = refreshIds v (nowUnix + cacheDurationSec) := by
      unfold updateCycle
      rw [if_neg (by omega)]
    refine ⟨heq, ?_⟩
    intro t p hp
    rw [heq, refreshIds_userHash]
    cases hcase : (refreshLoop (nowUnix + cacheDurationSec) v v.ids).1.userHash t with
    | some q => exact ⟨q, rfl⟩
    | none =>
        have hnone := refreshLoop_none (nowUnix + cacheDurationSec) v.ids v t hcase
        rw [hnone] at hp
        cases hp
  · intro hlt
    refine ⟨by omega, ?_⟩
    unfold updateCycle
    rw [if_pos hlt]

/-- C5 (witness): at the concrete validator (`baseTime = 50`), the cycle at
`nowUnix = 0` (horizon `-360 < 50`) skips the sweep and keeps the stored
token; the cycle at `nowUnix = 2000` (horizon `1640 > 50`) runs the sweep
with a non-negative offset. -/
theorem sweep_guard_witness :
    (updateCycle vMapW 0 = refreshIds vMapW (0 + cacheDurationSec) ∧
      ∃ p', (updateCycle vMapW 0).userHash (List.replicate 16 1) = some p') ∧
    (0 ≤ 2000 - cacheDurationSec * 3 - vMapW.baseTime ∧
      updateCycle vMapW 2000
        = removeExpiredHashes (refreshIds vMapW (2000 + cacheDurationSec))
            (uint32ofInt (2000 - cacheDurationSec * 3 - vMapW.baseTime))) :=
  ⟨⟨((sweep_guard vMapW 0).1 (by decide)).1,
    ((sweep_guard vMapW 0).1 (by decide)).2 (List.replicate 16 1) ⟨0, 7⟩ (by decide)⟩,
   (sweep_guard vMapW 2000).2 (by decide)⟩

/-- C6: `generateNewHashes(target, idx, entry)` is a no-op — state and
entry both unchanged — when `entry.lastSec` already exceeds the target;
and with a collision-free hash, a generator run never alters the stored
pair of a token of this entry for an already-covered second
(`s < entry.lastSec`). -/
theorem generate_noop_and_stable (v : TimedUserValidator) (nowSec : Int) (idx : Nat)
    (e : idEntry) :
    (nowSec < e.lastSec → generateNewHashes v nowSec idx e = (v, e)) ∧
    (HashInjective v.hasher → ∀ s : Int, s < e.lastSec →
      (generateNewHashes v nowSec idx e).1.userHash (v.hasher e.id s)
        = v.userHash (v.hasher e.id s)) := by
  constructor
  · intro hlt
    have hc : (nowSec + 1 - e.lastSec).toNat = 0 := by omega
    unfold generateNewHashes
    rw [hc]
    rfl
  · intro hInj s hs
    apply generateNewHashes_untouched v nowSec idx e hInj s
    unfold genSeconds
    intro hcon
    omega

/-- C6 (witness): at the concrete state and entry (`lastSec = 10`), a run
with target 5 is a no-op, and a run with target 20 leaves the token of the
covered second 3 unchanged. -/
theorem generate_noop_and_stable_witness :
    generateNewHashes vMapW 5 0 eW = (vMapW, eW) ∧
    (generateNewHashes vMapW 20 0 eW).1.userHash (vMapW.hasher eW.id 3)
      = vMapW.userHash (vMapW.hasher eW.id 3) :=
  ⟨(generate_noop_and_stable vMapW 5 0 eW).1 (by decide),
   (generate_noop_and_stable vMapW 20 0 eW).2 testHasher_inj 3 (by decide)⟩

/-- C2: after a successful `Add(user)` at wall-clock second `nowSec`, for
the primary key and every alternate key `K` and every second `s` in
`[nowSec - cacheDuration, nowSec + cacheDuration]`, the token
`hasher K s` is in the map with the new identity's index and offset
`s - baseTime`, and `Get` on that token returns that identity, timestamp
`baseTime + (s - baseTime) = s`, and `found = true`. (Collision-freeness
of the hash strategy and the in-`uint32`-range side conditions on
`s - baseTime` are assumed; the hash output must be 16 bytes for `Get` to
look up the very same token.) -/
theorem add_seeds_full_window (v : TimedUserValidator) (nowSec s : Int) (user : User)
    (account : InternalAccount) (K : Key)
    (hInj : HashInjective v.hasher)
    (hAcc : user.account = some account)
    (hK : K ∈ account.ID :: account.AlterIDs)
    (h1 : nowSec - cacheDurationSec ≤ s) (h2 : s ≤ nowSec + cacheDurationSec)
    (hb1 : v.baseTime ≤ s) (hb2 : s - v.baseTime < 4294967296)
    (hlen : (v.hasher K s).length = 16) :
    (Add v nowSec user).2 = none ∧
    (Add v nowSec user).1.userHash (v.hasher K s)
      = some ⟨v.validUsers.length, (s - v.baseTime).toNat⟩ ∧
    Get (Add v nowSec user).1 (v.hasher K s) = (some user, s, true) := by
  have hmod : uint32ofInt (s - v.baseTime) = (s - v.baseTime).toNat :=
    uint32ofInt_eq_toNat (by omega) hb2
  have hmap := addKeys_hit nowSec v.validUsers.length (account.ID :: account.AlterIDs)
    { v with validUsers := v.validUsers ++ [user] } hInj K s hK h1 h2
  rw [Add_success v nowSec user account hAcc]
  refine ⟨rfl, ?_, ?_⟩
  · rw [← hmod]
    exact hmap
  · have hlook : (addKeys nowSec v.validUsers.length
        { v with validUsers := v.validUsers ++ [user] }
        (account.ID :: account.AlterIDs)).userHash (fixedSizeOf (v.hasher K s))
        = some ⟨v.validUsers.length, (s - v.baseTime).toNat⟩ := by
      rw [fixedSizeOf_eq_self _ hlen, ← hmod]
      exact hmap
    rw [Get_of_lookup _ _ _ hlook, addKeys_validUsers, addKeys_baseTime]
    show ((v.validUsers ++ [user])[v.validUsers.length]?,
        (((s - v.baseTime).toNat : Nat) : Int) + v.baseTime, true) = (some user, s, true)
    rw [List.getElem?_concat_length]
    have hts : (((s - v.baseTime).toNat : Nat) : Int) + v.baseTime = s := by
      rw [Int.toNat_of_nonneg (by omega)]
      ring
    rw [hts]

/-- C2 (witness): the validator constructed at second 0, a user with
primary ID `[1]` and alternate ID `[2]` added at second 0, the alternate
key at second 5. -/
theorem add_seeds_full_window_witness :
    (Add (NewTimedUserValidator testHasher 0) 0 user2W).2 = none ∧
    (Add (NewTimedUserValidator testHasher 0) 0 user2W).1.userHash
        ((NewTimedUserValidator testHasher 0).hasher [2] 5)
      = some ⟨(NewTimedUserValidator testHasher 0).validUsers.length,
          ((5 : Int) - (NewTimedUserValidator testHasher 0).baseTime).toNat⟩ ∧
    Get (Add (NewTimedUserValidator testHasher 0) 0 user2W).1
        ((NewTimedUserValidator testHasher 0).hasher [2] 5)
      = (some user2W, 5, true) :=
  add_seeds_full_window (NewTimedUserValidator testHasher 0) 0 5 user2W ⟨[1], [[2]]⟩ [2]
    testHasher_inj (by decide) (by decide) (by decide) (by decide) (by decide) (by decide)
    (testHasher_len [2] 5)

theorem getElem?_some_lt {α : Type} (l : List α) (j : Nat) (a : α) (h : l[j]? = some a) :
    j < l.length := by
  by_contra hc
  rw [List.getElem?_eq_none (by omega)] at h
  cases h

/-- C7: per entry, `lastSec` is monotonically non-decreasing across every
operation: each generator run only advances it, `Add` leaves every existing
entry untouched, and a refresh cycle maps each entry to one with a
`lastSec` at least as large; and a second generated by one run
(`genSeconds`, the interval `[lastSec, target]` the loop covers) is never
generated again by a later run on the resulting entry. -/
theorem entry_cursor_monotone :
    (∀ (v : TimedUserValidator) (nowSec : Int) (idx : Nat) (e : idEntry),
        e.lastSec ≤ (generateNewHashes v nowSec idx e).2.lastSec) ∧
    (∀ (v : TimedUserValidator) (nowSec : Int) (user : User) (j : Nat) (e : idEntry),
        v.ids[j]? = some e → (Add v nowSec user).1.ids[j]? = some e) ∧
    (∀ (v : TimedUserValidator) (nowUnix : Int) (j : Nat) (e : idEntry),
        v.ids[j]? = some e →
        ∃ e', (updateCycle v nowUnix).ids[j]? = some e' ∧ e.lastSec ≤ e'.lastSec) ∧
    (∀ (v : TimedUserValidator) (nowSec target : Int) (idx : Nat) (e : idEntry) (s : Int),
        genSeconds e nowSec s →
        ¬ genSeconds (generateNewHashes v nowSec idx e).2 target s) := by
  refine ⟨?_, ?_, ?_, ?_⟩
  · intro v nowSec idx e
    exact generateNewHashes_lastSec_mono v nowSec idx e
  · intro v nowSec user j e he
    cases hacc : user.account with
    | none =>
        rw [Add_fail v nowSec user hacc]
        exact he
    | some account =>
        rw [Add_success v nowSec user account hacc]
        obtain ⟨l, hl⟩ := addKeys_ids_sub nowSec v.validUsers.length
          (account.ID :: account.AlterIDs) { v with validUsers := v.validUsers ++ [user] }
        show (addKeys nowSec v.validUsers.length
          { v with validUsers := v.validUsers ++ [user] }
          (account.ID :: account.AlterIDs)).ids[j]? = some e
        rw [hl]
        show (v.ids ++ l)[j]? = some e
        rw [List.getElem?_append_left (getElem?_some_lt v.ids j e he)]
        exact he
  · intro v nowUnix j e he
    rw [updateCycle_ids]
    obtain ⟨e', he', hle, _, _⟩ :=
      refreshLoop_mono (nowUnix + cacheDurationSec) v.ids v j e he
    exact ⟨e', he', hle⟩
  · intro v nowSec target idx e s hgen
    unfold genSeconds at hgen
    rintro ⟨hA, hB⟩
    rw [generateNewHashes_lastSec_of_le v nowSec idx e (by omega)] at hA
    omega

set_option maxRecDepth 8000

/-- C7 (witness): a concrete generator run advances the cursor; the entry
seeded by the concrete `Add` (cursor 121) survives a failed `Add` intact
and only moves forward across a refresh cycle; and second 15, generated by
the run of target 20, cannot be generated by any later run. -/
theorem entry_cursor_monotone_witness :
    eW.lastSec ≤ (generateNewHashes vMapW 20 0 eW).2.lastSec ∧
    (Add vW 7 badUserW).1.ids[0]? = some ⟨[1], 0, 121⟩ ∧
    (∃ e', (updateCycle vW 3).ids[0]? = some e' ∧
      (⟨[1], 0, 121⟩ : idEntry).lastSec ≤ e'.lastSec) ∧
    ¬ genSeconds (generateNewHashes vMapW 20 0 eW).2 99 15 :=
  ⟨entry_cursor_monotone.1 vMapW 20 0 eW,
   entry_cursor_monotone.2.1 vW 7 badUserW 0 ⟨[1], 0, 121⟩ (by decide),
   entry_cursor_monotone.2.2.1 vW 3 0 ⟨[1], 0, 121⟩ (by decide),
   entry_cursor_monotone.2.2.2 vMapW 20 99 0 eW 15 (by unfold genSeconds; decide)⟩

/-- C9: in every reachable state, every stored token's `index` is a valid
index into the identity list, so the indexed read performed by `Get` on a
hit always yields an identity (the lookup is `isSome`). -/
theorem token_index_in_bounds (v : TimedUserValidator) (hR : Reachable v) :
    (∀ t p, v.userHash t = some p → p.index < v.validUsers.length) ∧
    (∀ input, (Get v input).2.2 = true → ((Get v input).1).isSome = true) := by
  have hI := reachable_inv v hR
  constructor
  · intro t p hp
    exact (hI.2 t p hp).1
  · intro input hfound
    cases hcase : v.userHash (fixedSizeOf input) with
    | none =>
        rw [Get_of_none v input hcase] at hfound
        simp at hfound
    | some pair =>
        rw [Get_of_lookup v input pair hcase]
        have hb := (hI.2 _ pair hcase).1
        show (v.validUsers[pair.index]?).isSome = true
        rw [List.getElem?_eq_getElem hb]
        rfl

/-- C9 (witness): at the concrete reachable validator, the stored pair of
the token of second 5 has index 0, in bounds, and `Get` on that token
yields an identity. -/
theorem token_index_in_bounds_witness :
    ((⟨0, 365⟩ : indexTimePair).index < vW.validUsers.length) ∧
    ((Get vW (testHasher [1] 5)).1).isSome = true :=
  ⟨(token_index_in_bounds vW
      (Reachable.add (NewTimedUserValidator testHasher 0) 0 userW
        (Reachable.init testHasher 0))).1 (testHasher [1] 5) ⟨0, 365⟩ (by decide),
   (token_index_in_bounds vW
      (Reachable.add (NewTimedUserValidator testHasher 0) 0 userW
        (Reachable.init testHasher 0))).2 (testHasher [1] 5) (by decide)⟩

/-- C8: with a collision-free hash strategy, in every reachable state, a
token of key `K` — where every live entry holding `K` belongs to identity
index `i` — can only resolve to identity `i`: the stored pair carries
index `i`, and `Get` on the token returns the identity at index `i`,
never a different identity. -/
theorem cross_identity_isolation (v : TimedUserValidator) (hR : Reachable v)
    (hInj : HashInjective v.hasher) (K : Key) (i : Nat)
    (hOwn : ∀ e ∈ v.ids, e.id = K → e.userIdx = i)
    (s : Int) (p : indexTimePair)
    (hTok : v.userHash (v.hasher K s) = some p) :
    p.index = i ∧
    ((v.hasher K s).length = 16 → (Get v (v.hasher K s)).1 = v.validUsers[i]?) := by
  have hI := reachable_inv v hR
  obtain ⟨hb, K', s', htk, e, hel, hei, heu⟩ := hI.2 _ _ hTok
  obtain ⟨hKK, hss⟩ := hInj K s K' s' htk
  have hpi : p.index = i := by
    rw [← heu]
    exact hOwn e hel (by rw [hei, ← hKK])
  refine ⟨hpi, ?_⟩
  intro hlen
  rw [Get_of_lookup v _ p (by rwa [fixedSizeOf_eq_self _ hlen])]
  rw [hpi]

/-- C8 (witness): at the concrete reachable validator, the token of key
`[1]` and second 5 resolves to index 0 — the identity owning `[1]` — and
`Get` returns the identity stored at index 0. -/
theorem cross_identity_isolation_witness :
    (⟨0, 365⟩ : indexTimePair).index = 0 ∧
    (Get vW (vW.hasher [1] 5)).1 = vW.validUsers[(0 : Nat)]? :=
  ⟨(cross_identity_isolation vW
      (Reachable.add (NewTimedUserValidator testHasher 0) 0 userW
        (Reachable.init testHasher 0))
      testHasher_inj [1] 0 (by decide) 5 ⟨0, 365⟩ (by decide)).1,
   (cross_identity_isolation vW
      (Reachable.add (NewTimedUserValidator testHasher 0) 0 userW
        (Reachable.init testHasher 0))
      testHasher_inj [1] 0 (by decide) 5 ⟨0, 365⟩ (by decide)).2 (testHasher_len [1] 5)⟩

end Vmess
